import Mathlib

/-!
Verification of the parallel RAR password brute-forcer (`src/main.py`).

The program enumerates numeric passwords rendered as zero-padded 8-character
decimal strings, splits the range `[0, max_password]` into one chunk per
process (`create_password_chunks`), runs `test_password_chunk` on each chunk,
collects results in chunk order (`pool.imap` yields results in submission
order), and on the first non-`None` result runs the confirmation step
(`extract_rar_file`); on confirmation failure it `break`s out of the
collection loop and falls through to the "not found" return.

The archive oracle (the `rarfile` library) is modelled as a function from a
candidate string to a `ProbeOutcome`; the confirmation step (full extraction)
as a boolean predicate on the candidate string.  Candidate strings are
`List Char`.
-/

namespace RarBrute

/-- Outcome of probing one candidate password against the archive: success
(the reads at lines 48/52 of main.py complete), `rarfile.RarWrongPassword`,
`rarfile.BadRarFile`, an empty `infolist()` (line 40), failure to open the
archive at all (`rarfile.RarFile(rar_path)` raising at line 35), or any
other exception (line 60). -/
inductive ProbeOutcome where
  | accepted
  | wrongPassword
  | badRarFile
  | emptyArchive
  | openFailed
  | otherError
  deriving DecidableEq

/-- Character of one decimal digit value. -/
def digitChar : Nat → Char
  | 0 => '0'
  | 1 => '1'
  | 2 => '2'
  | 3 => '3'
  | 4 => '4'
  | 5 => '5'
  | 6 => '6'
  | 7 => '7'
  | 8 => '8'
  | 9 => '9'
  | _ => '?'

/-- Decimal digit values of `n`, least significant first, with explicit fuel
so the definition is structural and kernel-reducible.  With fuel `≥ n` the
fallback arm is never reached. -/
def digitsRevFuel : Nat → Nat → List Nat
  | _, 0 => []
  | 0, n + 1 => [n + 1]
  | f + 1, n + 1 => (n + 1) % 10 :: digitsRevFuel f ((n + 1) / 10)

/-- Decimal digit values of `n`, least significant first (`[]` for 0). -/
def digitsRev (n : Nat) : List Nat := digitsRevFuel n n

/-- Python `str(n)` for a natural `n`: decimal digit characters, most
significant first. -/
def natStr (n : Nat) : List Char :=
  if n = 0 then ['0'] else (digitsRev n).reverse.map digitChar

/-- Python `str.zfill(w)`: left-pad with `'0'` to length at least `w`. -/
def zfill (w : Nat) (s : List Char) : List Char :=
  List.replicate (w - s.length) '0' ++ s

/-- The candidate generator `str(n).zfill(w)`. -/
def renderCand (w n : Nat) : List Char := zfill w (natStr n)

/-- Python `int(s)` on a digit string: fold accumulating `10*acc + digit`. -/
def parseDec (s : List Char) : Nat :=
  s.foldl (fun a c => 10 * a + (c.toNat - 48)) 0

/-- The worker's candidate string, `password = str(num).zfill(8)`
(main.py line 32, width hardwired to 8). -/
def render8 (num : Int) : List Char := renderCand 8 num.toNat

/-- Python `range(a, b + 1)` as a list of integers (empty when `b < a`). -/
def intRange (a b : Int) : List Int :=
  (List.range (b + 1 - a).toNat).map (fun k : Nat => a + (k : Int))

/-- The body of the worker's `for num in range(start_num, end_num + 1)` loop
(main.py lines 31-64): probe each candidate in order; `accepted` returns the
rendered password, every other outcome hits a `continue` and the loop
advances; an exhausted loop returns `None`. -/
def chunkLoop (g : List Char → ProbeOutcome) : List Int → Option (List Char)
  | [] => none
  | num :: rest =>
    match g (render8 num) with
    | ProbeOutcome.accepted => some (render8 num)
    | _ => chunkLoop g rest

/-- `test_password_chunk` (main.py lines 23-68): iterate the chunk's range,
return the first accepted candidate string, else `None`. -/
def test_password_chunk (g : List Char → ProbeOutcome) (start_num end_num : Int) :
    Option (List Char) :=
  chunkLoop g (intRange start_num end_num)

/-- The sequence of candidate numbers the worker's loop actually probes:
every number up to and including the first accepted one (or the whole range
when none is accepted). -/
def chunkProbes (g : List Char → ProbeOutcome) : List Int → List Int
  | [] => []
  | num :: rest =>
    match g (render8 num) with
    | ProbeOutcome.accepted => [num]
    | _ => num :: chunkProbes g rest

/-- Candidate numbers probed by `test_password_chunk` on `[start_num, end_num]`. -/
def workerProbes (g : List Char → ProbeOutcome) (start_num end_num : Int) : List Int :=
  chunkProbes g (intRange start_num end_num)

/-- `create_password_chunks` (main.py lines 71-88):
`chunk_size = max_password // num_processes`; chunk `i` is
`(i*chunk_size, i*chunk_size + chunk_size - 1, i)` except that the last
chunk's end is forced to `max_password`. -/
def create_password_chunks (max_password num_processes : Nat) : List (Int × Int × Nat) :=
  let chunk_size := max_password / num_processes
  (List.range num_processes).map (fun (i : Nat) =>
    let start : Int := ((i * chunk_size : Nat) : Int)
    (start,
     if i = num_processes - 1 then ((max_password : Nat) : Int)
     else start + ((chunk_size : Nat) : Int) - 1,
     i))

/-- The coordinator's result-collection loop (main.py lines 159-177):
`pool.imap` yields chunk results in submission (chunk) order; the first
non-`None` result is confirmed via `extract_rar_file`; on success it is
returned, on failure the loop `break`s and the function falls through to the
"not found" return of `None`. -/
def collectResults (confirm : List Char → Bool) :
    List (Option (List Char)) → Option (List Char)
  | [] => none
  | none :: rest => collectResults confirm rest
  | some pw :: _ => if confirm pw then some pw else none

/-- `brute_force_rar_password` (main.py lines 127-189) with the oracle and
the confirmation step abstracted: `max_password = 10 ** max_digits - 1`,
chunks from `create_password_chunks`, workers run per chunk, results
collected in chunk order. -/
def brute_force_rar_password (g : List Char → ProbeOutcome)
    (confirm : List Char → Bool) (max_digits num_processes : Nat) :
    Option (List Char) :=
  let max_password := 10 ^ max_digits - 1
  let chunks := create_password_chunks max_password num_processes
  collectResults confirm (chunks.map (fun c => test_password_chunk g c.1 c.2.1))

/-- Oracle for the false-positive scenario: the probe accepts the candidates
rendering 7 and 9, every other candidate is a wrong password. -/
def probeFalsePositive (s : List Char) : ProbeOutcome :=
  if s = render8 7 ∨ s = render8 9 then ProbeOutcome.accepted
  else ProbeOutcome.wrongPassword

/-- Confirmation for the false-positive scenario: full extraction succeeds
only with the candidate rendering 9, so 7 is a false positive. -/
def confirmOnlyNine (s : List Char) : Bool := s == render8 9

/-- Oracle for the determinism scenario: the probe accepts exactly the
candidate rendering 42. -/
def probeOnly42 (s : List Char) : ProbeOutcome :=
  if s = render8 42 then ProbeOutcome.accepted else ProbeOutcome.wrongPassword

/-- Confirmation that always succeeds (a true positive). -/
def confirmAlways : List Char → Bool := fun _ => true

/-! ### Decimal rendering and parsing lemmas -/

lemma digitsRevFuel_foldr (f : Nat) : ∀ n : Nat, n ≤ f →
    (digitsRevFuel f n).foldr (fun d a => 10 * a + d) 0 = n := by
  induction f with
  | zero =>
    intro n hn
    have : n = 0 := Nat.le_zero.mp hn
    subst this
    simp [digitsRevFuel]
  | succ f ih =>
    intro n hn
    match n with
    | 0 => simp [digitsRevFuel]
    | m + 1 =>
      have hdiv : (m + 1) / 10 ≤ f := by
        have := Nat.div_lt_self (Nat.succ_pos m) (by norm_num : 1 < 10)
        omega
      simp only [digitsRevFuel, List.foldr_cons, ih _ hdiv]
      have := Nat.div_add_mod (m + 1) 10
      omega

lemma digitsRevFuel_lt_ten (f : Nat) : ∀ n : Nat, n ≤ f →
    ∀ d ∈ digitsRevFuel f n, d < 10 := by
  induction f with
  | zero =>
    intro n hn
    have : n = 0 := Nat.le_zero.mp hn
    subst this
    simp [digitsRevFuel]
  | succ f ih =>
    intro n hn
    match n with
    | 0 => simp [digitsRevFuel]
    | m + 1 =>
      have hdiv : (m + 1) / 10 ≤ f := by
        have := Nat.div_lt_self (Nat.succ_pos m) (by norm_num : 1 < 10)
        omega
      intro d hd
      simp only [digitsRevFuel, List.mem_cons] at hd
      rcases hd with h | h
      · subst h; exact Nat.mod_lt _ (by norm_num)
      · exact ih _ hdiv d h

lemma digitsRevFuel_length (f : Nat) : ∀ n w : Nat, n ≤ f → n < 10 ^ w →
    (digitsRevFuel f n).length ≤ w := by
  induction f with
  | zero =>
    intro n w hn _
    have : n = 0 := Nat.le_zero.mp hn
    subst this
    simp [digitsRevFuel]
  | succ f ih =>
    intro n w hn hw
    match n with
    | 0 => simp [digitsRevFuel]
    | m + 1 =>
      match w with
      | 0 => simp at hw
      | w + 1 =>
        have hdiv : (m + 1) / 10 ≤ f := by
          have := Nat.div_lt_self (Nat.succ_pos m) (by norm_num : 1 < 10)
          omega
        have hlt : (m + 1) / 10 < 10 ^ w := by
          rw [Nat.div_lt_iff_lt_mul (by norm_num : 0 < 10)]
          calc m + 1 < 10 ^ (w + 1) := hw
            _ = 10 ^ w * 10 := by rw [pow_succ]
        simpa [digitsRevFuel] using ih _ w hdiv hlt

lemma digitChar_toNat (d : Nat) (hd : d < 10) : (digitChar d).toNat - 48 = d := by
  interval_cases d <;> decide

lemma foldl_map_digitChar : ∀ (ds : List Nat) (a : Nat), (∀ d ∈ ds, d < 10) →
    (ds.map digitChar).foldl (fun a c => 10 * a + (c.toNat - 48)) a =
      ds.foldl (fun a d => 10 * a + d) a := by
  intro ds
  induction ds with
  | nil => intro a _; rfl
  | cons d ds ih =>
    intro a hall
    have hd : d < 10 := hall d (List.mem_cons_self d ds)
    simp only [List.map_cons, List.foldl_cons, digitChar_toNat d hd]
    exact ih _ (fun x hx => hall x (List.mem_cons_of_mem d hx))

lemma parseDec_natStr (n : Nat) : parseDec (natStr n) = n := by
  by_cases h : n = 0
  · subst h; decide
  · unfold natStr parseDec
    rw [if_neg h]
    rw [foldl_map_digitChar ((digitsRev n).reverse) 0
      (fun d hd => digitsRevFuel_lt_ten n n Nat.le.refl d (List.mem_reverse.mp hd))]
    rw [List.foldl_reverse]
    exact digitsRevFuel_foldr n n Nat.le.refl

lemma natStr_length_le (n w : Nat) (hw : 0 < w) (hn : n < 10 ^ w) :
    (natStr n).length ≤ w := by
  by_cases h : n = 0
  · subst h; simpa [natStr] using hw
  · unfold natStr
    rw [if_neg h]
    simpa using digitsRevFuel_length n n w Nat.le.refl hn

lemma parseDec_replicate_zero : ∀ k : Nat,
    (List.replicate k '0').foldl (fun a c => 10 * a + (c.toNat - 48)) 0 = 0 := by
  intro k
  induction k with
  | zero => rfl
  | succ k ih => simpa [List.replicate_succ] using ih

lemma renderCand_parse (w n : Nat) : parseDec (renderCand w n) = n := by
  unfold renderCand zfill parseDec
  rw [List.foldl_append, parseDec_replicate_zero]
  exact parseDec_natStr n

lemma renderCand_len (w n : Nat) (hw : 0 < w) (hn : n < 10 ^ w) :
    (renderCand w n).length = w := by
  unfold renderCand zfill
  have hle := natStr_length_le n w hw hn
  simp [List.length_append, List.length_replicate]
  omega

lemma render8_parse (k : Int) : parseDec (render8 k) = k.toNat :=
  renderCand_parse 8 k.toNat

lemma render8_len (k : Int) (hk : k.toNat < 10 ^ 8) : (render8 k).length = 8 :=
  renderCand_len 8 k.toNat (by norm_num) hk

lemma render8_injOn (k n : Int) (hk : 0 ≤ k) (hn : 0 ≤ n)
    (h : render8 k = render8 n) : k = n := by
  have hp := congrArg parseDec h
  rw [render8_parse, render8_parse] at hp
  omega

/-! ### Integer range lemmas -/

lemma intRange_nil (a b : Int) (h : b < a) : intRange a b = [] := by
  unfold intRange
  have : (b + 1 - a).toNat = 0 := by omega
  rw [this]
  rfl

lemma mem_intRange (a b n : Int) : n ∈ intRange a b ↔ a ≤ n ∧ n ≤ b := by
  unfold intRange
  simp only [List.mem_map, List.mem_range]
  constructor
  · rintro ⟨k, hk, rfl⟩
    omega
  · rintro ⟨h1, h2⟩
    exact ⟨(n - a).toNat, by omega, by omega⟩

lemma intRange_append (a b c : Int) (h1 : a ≤ b + 1) (h2 : b ≤ c) :
    intRange a c = intRange a b ++ intRange (b + 1) c := by
  unfold intRange
  have h3 : (c + 1 - (b + 1)).toNat = (c - b).toNat := by omega
  have hsum : (c + 1 - a).toNat = (b + 1 - a).toNat + (c - b).toNat := by omega
  rw [h3, hsum, List.range_add, List.map_append, List.map_map]
  congr 1
  apply List.map_congr_left
  intro x _
  simp only [Function.comp]
  push_cast
  omega

lemma intRange_cons (a b : Int) (h : a ≤ b) : intRange a b = a :: intRange (a + 1) b := by
  have := intRange_append a a b (by omega) h
  rw [this]
  have : intRange a a = [a] := by
    unfold intRange
    have h1 : (a + 1 - a).toNat = 1 := by omega
    rw [h1]
    simp [List.range_succ]
  rw [this]
  rfl

lemma pairwise_lt_intRange (a b : Int) :
    List.Pairwise (fun x y => x < y) (intRange a b) := by
  unfold intRange
  rw [List.pairwise_map]
  refine (List.pairwise_lt_range _).imp ?_
  intro x y h
  omega

/-! ### Worker lemmas -/

lemma chunkLoop_eq_find (g : List Char → ProbeOutcome) : ∀ l : List Int,
    chunkLoop g l =
      (l.find? (fun n => decide (g (render8 n) = ProbeOutcome.accepted))).map render8 := by
  intro l
  induction l with
  | nil => rfl
  | cons num rest ih =>
    cases hg : g (render8 num) <;>
      simp [chunkLoop, List.find?_cons, hg, ih]

lemma chunkProbes_sublist (g : List Char → ProbeOutcome) : ∀ l : List Int,
    (chunkProbes g l).Sublist l := by
  intro l
  induction l with
  | nil => exact List.Sublist.refl []
  | cons num rest ih =>
    cases hg : g (render8 num) <;> simp [chunkProbes, hg] <;>
      first
        | exact List.nil_sublist rest
        | exact ih

lemma find?_intRange_min (p : Int → Bool) :
    ∀ (k : Nat) (a b n : Int), (b + 1 - a).toNat = k →
      (intRange a b).find? p = some n →
      ∀ m, a ≤ m → m < n → p m = false := by
  intro k
  induction k with
  | zero =>
    intro a b n hk hfind
    rw [intRange_nil a b (by omega)] at hfind
    simp at hfind
  | succ k ih =>
    intro a b n hk hfind m hm1 hm2
    have hab : a ≤ b := by omega
    rw [intRange_cons a b hab] at hfind
    rw [List.find?_cons] at hfind
    cases hpa : p a with
    | true =>
      rw [hpa] at hfind
      simp at hfind
      omega
    | false =>
      rw [hpa] at hfind
      simp only at hfind
      rcases eq_or_lt_of_le hm1 with rfl | hlt
      · exact hpa
      · exact ih (a + 1) b n (by omega) hfind m (by omega) hm2

lemma find?_intRange_eq_some (p : Int → Bool) :
    ∀ (k : Nat) (a b n : Int), (b + 1 - a).toNat = k →
      a ≤ n → n ≤ b → p n = true →
      (∀ m, a ≤ m → m < n → p m = false) →
      (intRange a b).find? p = some n := by
  intro k
  induction k with
  | zero =>
    intro a b n hk h1 h2 _ _
    omega
  | succ k ih =>
    intro a b n hk h1 h2 hp hmin
    have hab : a ≤ b := by omega
    rw [intRange_cons a b hab, List.find?_cons]
    rcases eq_or_lt_of_le h1 with rfl | hlt
    · rw [hp]
    · rw [hmin a (by omega) hlt]
      simp only
      exact ih (a + 1) b n (by omega) (by omega) h2 hp
        (fun m hm1 hm2 => hmin m (by omega) hm2)

/-! ### Partitioner lemmas -/

lemma create_password_chunks_eq (m w : Nat) :
    create_password_chunks m w =
      (List.range w).map (fun (i : Nat) =>
        (((i * (m / w) : Nat) : Int),
         if i = w - 1 then ((m : Nat) : Int)
         else ((i * (m / w) : Nat) : Int) + (((m / w) : Nat) : Int) - 1,
         i)) := rfl

lemma create_password_chunks_getD (m w i : Nat) (h : i < w) :
    (create_password_chunks m w).getD i (0, 0, 0) =
      (((i * (m / w) : Nat) : Int),
       if i = w - 1 then ((m : Nat) : Int)
       else ((i * (m / w) : Nat) : Int) + (((m / w) : Nat) : Int) - 1,
       i) := by
  rw [create_password_chunks_eq, List.getD_eq_getElem?_getD, List.getElem?_map,
    List.getElem?_range h]
  rfl

lemma flatMap_regular_chunks (cs : Nat) : ∀ k : Nat,
    ((List.range k).map (fun (i : Nat) =>
        ((((i * cs : Nat) : Int)),
         (((i * cs : Nat) : Int)) + ((cs : Nat) : Int) - 1,
         i))).flatMap (fun c : Int × Int × Nat => intRange c.1 c.2.1) =
      intRange 0 (((k * cs : Nat) : Int) - 1) := by
  intro k
  induction k with
  | zero =>
    rw [intRange_nil 0 (((0 * cs : Nat) : Int) - 1) (by simp)]
    rfl
  | succ k ih =>
    rw [List.range_succ, List.map_append, List.flatMap_append, ih]
    have e1 : (((k + 1) * cs : Nat) : Int) - 1 =
        ((((k * cs : Nat) : Int) - 1) + ((cs : Nat) : Int)) := by
      push_cast
      ring
    rw [e1, intRange_append 0 (((k * cs : Nat) : Int) - 1)
      ((((k * cs : Nat) : Int) - 1) + ((cs : Nat) : Int)) (by omega) (by omega)]
    congr 1
    simp only [List.map_cons, List.map_nil, List.flatMap_cons, List.flatMap_nil,
      List.append_nil]
    have h4 : (((k * cs : Nat) : Int) - 1) + 1 = ((k * cs : Nat) : Int) := by ring
    have h5 : ((k * cs : Nat) : Int) + ((cs : Nat) : Int) - 1 =
        (((k * cs : Nat) : Int) - 1) + ((cs : Nat) : Int) := by ring
    rw [h4, h5]

lemma create_password_chunks_flatMap (m w : Nat) (hw : 0 < w) :
    (create_password_chunks m w).flatMap (fun c => intRange c.1 c.2.1) =
      intRange 0 (m : Int) := by
  obtain ⟨w', rfl⟩ : ∃ w', w = w' + 1 := ⟨w - 1, by omega⟩
  rw [create_password_chunks_eq]
  rw [List.range_succ, List.map_append, List.flatMap_append]
  have hreg : (List.range w').map (fun (i : Nat) =>
      ((((i * (m / (w' + 1)) : Nat) : Int)),
       if i = w' + 1 - 1 then ((m : Nat) : Int)
       else (((i * (m / (w' + 1)) : Nat) : Int)) + ((((m / (w' + 1)) : Nat)) : Int) - 1,
       i)) =
      (List.range w').map (fun (i : Nat) =>
      ((((i * (m / (w' + 1)) : Nat) : Int)),
       (((i * (m / (w' + 1)) : Nat) : Int)) + ((((m / (w' + 1)) : Nat)) : Int) - 1,
       i)) := by
    apply List.map_congr_left
    intro i hi
    rw [List.mem_range] at hi
    rw [if_neg (by omega)]
  rw [hreg, flatMap_regular_chunks]
  simp only [List.map_cons, List.map_nil, List.flatMap_cons, List.flatMap_nil,
    List.append_nil]
  rw [if_pos (by omega : w' = w' + 1 - 1)]
  have hle : w' * (m / (w' + 1)) ≤ m :=
    calc w' * (m / (w' + 1)) ≤ (w' + 1) * (m / (w' + 1)) :=
          Nat.mul_le_mul_right _ (by omega)
      _ = m / (w' + 1) * (w' + 1) := Nat.mul_comm _ _
      _ ≤ m := Nat.div_mul_le_self m (w' + 1)
  have hle' : ((w' * (m / (w' + 1)) : Nat) : Int) ≤ (m : Int) := by exact_mod_cast hle
  rw [intRange_append 0 (((w' * (m / (w' + 1)) : Nat) : Int) - 1) (m : Int)
    (by omega) (by omega)]
  congr 1
  have h6 : (((w' * (m / (w' + 1)) : Nat) : Int) - 1) + 1 =
      ((w' * (m / (w' + 1)) : Nat) : Int) := by ring
  rw [h6]

lemma chunks_starts_pairwise (m w : Nat) :
    ((create_password_chunks m w).map (fun c => c.1)).Pairwise (fun a b => a ≤ b) := by
  rw [create_password_chunks_eq, List.map_map, List.pairwise_map]
  refine (List.pairwise_lt_range _).imp ?_
  intro x y h
  show ((x * (m / w) : Nat) : Int) ≤ ((y * (m / w) : Nat) : Int)
  have : x * (m / w) ≤ y * (m / w) := Nat.mul_le_mul_right _ (by omega)
  exact_mod_cast this

/-! ### Coordinator lemmas -/

lemma collectResults_flatMap (confirm : List Char → Bool) (g : List Char → ProbeOutcome) :
    ∀ C : List (Int × Int × Nat),
      collectResults confirm (C.map (fun c => test_password_chunk g c.1 c.2.1)) =
        match (C.flatMap (fun c => intRange c.1 c.2.1)).find?
            (fun n => decide (g (render8 n) = ProbeOutcome.accepted)) with
        | none => none
        | some n => if confirm (render8 n) then some (render8 n) else none := by
  intro C
  induction C with
  | nil => rfl
  | cons c rest ih =>
    rw [List.map_cons, List.flatMap_cons, List.find?_append]
    show collectResults confirm (test_password_chunk g c.1 c.2.1 :: _) = _
    unfold test_password_chunk
    rw [chunkLoop_eq_find]
    cases hf : (intRange c.1 c.2.1).find?
        (fun n => decide (g (render8 n) = ProbeOutcome.accepted)) with
    | none =>
      simp only [Option.map_none', Option.none_or, collectResults]
      exact ih
    | some n =>
      simp only [Option.map_some']
      rfl

lemma brute_force_eq_find (g : List Char → ProbeOutcome) (confirm : List Char → Bool)
    (d w : Nat) (hw : 0 < w) :
    brute_force_rar_password g confirm d w =
      match (intRange 0 ((10 ^ d - 1 : Nat) : Int)).find?
          (fun n => decide (g (render8 n) = ProbeOutcome.accepted)) with
      | none => none
      | some n => if confirm (render8 n) then some (render8 n) else none := by
  have h1 : brute_force_rar_password g confirm d w =
      collectResults confirm ((create_password_chunks (10 ^ d - 1) w).map
        (fun c => test_password_chunk g c.1 c.2.1)) := rfl
  rw [h1, collectResults_flatMap, create_password_chunks_flatMap _ _ hw]

/-! ### Claim theorems -/

/-- C3 counterexample: the claimed chunk size `floor((max_password+1)/worker_count)`
does not match the code.  At `max_password = 7`, `worker_count = 2` the code
computes `chunk_size = 7 // 2 = 3` and produces chunks `[(0,2,0),(3,7,1)]`,
while the claim's formula gives `chunk_size = 4` and a first chunk ending at
`0*4 + 4 - 1 = 3`, not `2`. -/
theorem chunk_size_claim_counterexample :
    create_password_chunks 7 2 = [(0, 2, 0), (3, 7, 1)]
    ∧ ((7 + 1) / 2 : Nat) = 4
    ∧ ¬ (((create_password_chunks 7 2).getD 0 (0, 0, 0)).2.1 =
          0 * (((7 + 1) / 2 : Nat) : Int) + (((7 + 1) / 2 : Nat) : Int) - 1) := by
  decide

/-- C3 (amended): the Partitioner computes
`chunk_size = floor(max_password / worker_count)` (no `+1`); chunk `i` covers
`[i*chunk_size, (i+1)*chunk_size - 1]` for every chunk except the last, and
the last chunk's end equals `max_password` regardless of the remainder. -/
theorem create_password_chunks_formula (m w : Nat) (hw : 0 < w) :
    (create_password_chunks m w).length = w
    ∧ ∀ i : Nat, i < w →
        (create_password_chunks m w).getD i (0, 0, 0) =
          (((i * (m / w) : Nat) : Int),
           if i = w - 1 then ((m : Nat) : Int)
           else ((i * (m / w) : Nat) : Int) + (((m / w) : Nat) : Int) - 1,
           i) := by
  constructor
  · rw [create_password_chunks_eq]
    simp
  · intro i hi
    exact create_password_chunks_getD m w i hi

/-- Witness for the amended C3 theorem at `max_password = 7`, `worker_count = 2`. -/
theorem create_password_chunks_formula_witness :
    0 < 2 ∧ ((create_password_chunks 7 2).length = 2
      ∧ ∀ i : Nat, i < 2 →
          (create_password_chunks 7 2).getD i (0, 0, 0) =
            (((i * (7 / 2) : Nat) : Int),
             if i = 2 - 1 then ((7 : Nat) : Int)
             else ((i * (7 / 2) : Nat) : Int) + (((7 / 2) : Nat) : Int) - 1,
             i)) :=
  ⟨by decide, create_password_chunks_formula 7 2 (by decide)⟩

/-- C4: for all `max_password ≥ 0` and `worker_count ≥ 1` the chunks are
ordered by start ascending, contiguous (each chunk starts right after its
predecessor ends), and their concatenated candidate ranges are exactly the
list `[0, ..., max_password]` — every candidate covered exactly once, no gap,
no overlap. -/
theorem create_password_chunks_partition (m w : Nat) (hw : 0 < w) :
    (create_password_chunks m w).length = w
    ∧ ((create_password_chunks m w).map (fun c => c.1)).Pairwise (fun a b => a ≤ b)
    ∧ (∀ i : Nat, i + 1 < w →
        ((create_password_chunks m w).getD (i + 1) (0, 0, 0)).1 =
          ((create_password_chunks m w).getD i (0, 0, 0)).2.1 + 1)
    ∧ (create_password_chunks m w).flatMap (fun c => intRange c.1 c.2.1) =
        intRange 0 (m : Int) := by
  refine ⟨?_, chunks_starts_pairwise m w, ?_, create_password_chunks_flatMap m w hw⟩
  · rw [create_password_chunks_eq]
    simp
  · intro i hi
    rw [create_password_chunks_getD m w (i + 1) (by omega),
        create_password_chunks_getD m w i (by omega)]
    rw [if_neg (by omega : ¬ i = w - 1)]
    show (((i + 1) * (m / w) : Nat) : Int) =
      (((i * (m / w) : Nat) : Int) + (((m / w) : Nat) : Int) - 1) + 1
    push_cast
    ring

/-- Witness for the C4 theorem at `max_password = 7`, `worker_count = 3`. -/
theorem create_password_chunks_partition_witness :
    0 < 3 ∧ ((create_password_chunks 7 3).length = 3
      ∧ ((create_password_chunks 7 3).map (fun c => c.1)).Pairwise (fun a b => a ≤ b)
      ∧ (∀ i : Nat, i + 1 < 3 →
          ((create_password_chunks 7 3).getD (i + 1) (0, 0, 0)).1 =
            ((create_password_chunks 7 3).getD i (0, 0, 0)).2.1 + 1)
      ∧ (create_password_chunks 7 3).flatMap (fun c => intRange c.1 c.2.1) =
          intRange 0 (7 : Int)) :=
  ⟨by decide, create_password_chunks_partition 7 3 (by decide)⟩

/-- C5: with `max_password = 7` and `worker_count = 10` the Partitioner
produces nine degenerate chunks `(0, -1)` and one chunk `(0, 7)`; a chunk
whose end is below its start enumerates the empty range, so every worker on
such a chunk returns `None` immediately under any oracle, and the chunk
ranges still concatenate to exactly `[0, ..., 7]` — each candidate covered
exactly once. -/
theorem overprovisioned_chunks_safe :
    create_password_chunks 7 10 =
      [(0, -1, 0), (0, -1, 1), (0, -1, 2), (0, -1, 3), (0, -1, 4),
       (0, -1, 5), (0, -1, 6), (0, -1, 7), (0, -1, 8), (0, 7, 9)]
    ∧ (∀ g : List Char → ProbeOutcome, ∀ s e : Int, e < s →
        intRange s e = [] ∧ test_password_chunk g s e = none)
    ∧ (create_password_chunks 7 10).flatMap (fun c => intRange c.1 c.2.1) =
        intRange 0 7 := by
  refine ⟨by decide, ?_, by decide⟩
  intro g s e h
  have hnil := intRange_nil s e h
  refine ⟨hnil, ?_⟩
  unfold test_password_chunk
  rw [hnil]
  rfl

/-- C6: the worker iterates its chunk in ascending order, returns the first
accepted candidate (rendered), returns `None` exactly when no candidate in
the range is accepted (non-accepting outcomes such as wrong password or
corrupt data merely advance the loop), and probes each candidate at most
once (the probed sequence is strictly increasing, hence without repeats). -/
theorem test_password_chunk_spec (g : List Char → ProbeOutcome) (s e : Int) :
    (test_password_chunk g s e = none ↔
      ∀ n : Int, s ≤ n → n ≤ e → g (render8 n) ≠ ProbeOutcome.accepted)
    ∧ (∀ pw : List Char, test_password_chunk g s e = some pw →
        ∃ n : Int, s ≤ n ∧ n ≤ e ∧ g (render8 n) = ProbeOutcome.accepted ∧
          pw = render8 n ∧
          ∀ m : Int, s ≤ m → m < n → g (render8 m) ≠ ProbeOutcome.accepted)
    ∧ List.Pairwise (fun a b => a < b) (workerProbes g s e)
    ∧ (workerProbes g s e).Nodup := by
  refine ⟨?_, ?_, ?_, ?_⟩
  · unfold test_password_chunk
    rw [chunkLoop_eq_find, Option.map_eq_none', List.find?_eq_none]
    constructor
    · intro h n h1 h2
      have := h n ((mem_intRange s e n).mpr ⟨h1, h2⟩)
      simpa using this
    · intro h n hn
      have hmem := (mem_intRange s e n).mp hn
      simpa using h n hmem.1 hmem.2
  · intro pw hpw
    unfold test_password_chunk at hpw
    rw [chunkLoop_eq_find] at hpw
    cases hf : (intRange s e).find?
        (fun n => decide (g (render8 n) = ProbeOutcome.accepted)) with
    | none => rw [hf] at hpw; simp at hpw
    | some n =>
      rw [hf] at hpw
      simp only [Option.map_some'] at hpw
      have hmem := (mem_intRange s e n).mp (List.mem_of_find?_eq_some hf)
      have hp := List.find?_some hf
      have hmin := find?_intRange_min _ (e + 1 - s).toNat s e n rfl hf
      refine ⟨n, hmem.1, hmem.2, by simpa using hp, (Option.some.inj hpw).symm, ?_⟩
      intro m h1 h2 hacc
      have := hmin m h1 h2
      simp [hacc] at this
  · exact List.Pairwise.sublist (chunkProbes_sublist g _) (pairwise_lt_intRange s e)
  · exact List.Pairwise.imp ne_of_lt
      (List.Pairwise.sublist (chunkProbes_sublist g _) (pairwise_lt_intRange s e))

/-- C7 counterexample: a worker whose every probe fails to open the archive
returns `None`, the very same value an exhausted worker returns on an
all-rejecting oracle — there is no distinct chunk-level failure report. -/
theorem open_failure_counterexample :
    test_password_chunk (fun _ => ProbeOutcome.openFailed) 0 9 = none
    ∧ test_password_chunk (fun _ => ProbeOutcome.wrongPassword) 0 9 = none := by
  decide

/-- C7 (amended): a worker that cannot open the archive swallows the error
per candidate (`except Exception: continue`) and, after exhausting its range,
returns `None` — indistinguishable from the "not found in this chunk"
exhaustion result, on every chunk. -/
theorem open_failure_returns_none (s e : Int) :
    test_password_chunk (fun _ => ProbeOutcome.openFailed) s e = none := by
  unfold test_password_chunk
  rw [chunkLoop_eq_find]
  have h : (intRange s e).find?
      (fun n => decide ((fun _ : List Char => ProbeOutcome.openFailed) (render8 n) =
        ProbeOutcome.accepted)) = none := by
    rw [List.find?_eq_none]
    intro n _
    simp
  rw [h]
  rfl

/-- C8: for every `n` in `[0, 10^width - 1]` the rendered candidate is the
decimal representation of `n` left-padded with zeros to exactly `width`
characters: its length is exactly `width` and parsing it back as a decimal
integer yields `n`. -/
theorem renderCand_roundtrip (w n : Nat) (hw : 0 < w) (hn : n ≤ 10 ^ w - 1) :
    (renderCand w n).length = w ∧ parseDec (renderCand w n) = n := by
  have h10 : 0 < 10 ^ w := pow_pos (by norm_num) w
  exact ⟨renderCand_len w n hw (by omega), renderCand_parse w n⟩

/-- Witness for the C8 theorem at `width = 8`, `n = 42`. -/
theorem renderCand_roundtrip_witness :
    (0 < 8 ∧ 42 ≤ 10 ^ 8 - 1) ∧
      ((renderCand 8 42).length = 8 ∧ parseDec (renderCand 8 42) = 42) :=
  ⟨⟨by decide, by decide⟩, renderCand_roundtrip 8 42 (by decide) (by decide)⟩

/-- C1: the code abandons the search on a false positive instead of resuming.
With `max_digits = 1` (space `[0, 9]`) and two chunks, an oracle whose probe
accepts the candidates rendering 7 and 9 but whose full extraction succeeds
only for 9: the probe-first candidate 7 fails confirmation, the collection
loop `break`s (main.py line 177), and the run returns `None` — even though
candidate 9 lies in the unexplored remainder, probe-accepts and confirms.
The claimed resume-over-remaining-candidates behavior never happens. -/
theorem false_positive_abandons_search :
    brute_force_rar_password probeFalsePositive confirmOnlyNine 1 2 = none
    ∧ probeFalsePositive (render8 7) = ProbeOutcome.accepted
    ∧ confirmOnlyNine (render8 7) = false
    ∧ probeFalsePositive (render8 9) = ProbeOutcome.accepted
    ∧ confirmOnlyNine (render8 9) = true
    ∧ (0 : Int) ≤ 9 ∧ (9 : Int) ≤ ((10 ^ 1 - 1 : Nat) : Int) := by
  decide

/-- C9: the reported result is a deterministic function of the oracle alone,
independent of the number of workers and of any scheduling: results are
collected in chunk order (`pool.imap`), so whenever `n0` is the numerically
smallest candidate in `[0, 10^max_digits - 1]` whose probe is accepted and
its confirmation succeeds, the search returns exactly the rendering of `n0`,
for every positive worker count. -/
theorem search_returns_least_accepted (g : List Char → ProbeOutcome)
    (confirm : List Char → Bool) (d w : Nat) (n0 : Int) (hw : 0 < w)
    (h0 : 0 ≤ n0) (hm : n0 ≤ ((10 ^ d - 1 : Nat) : Int))
    (hacc : g (render8 n0) = ProbeOutcome.accepted)
    (hmin : ∀ k : Int, 0 ≤ k → k < n0 → g (render8 k) ≠ ProbeOutcome.accepted)
    (hconf : confirm (render8 n0) = true) :
    brute_force_rar_password g confirm d w = some (render8 n0) := by
  rw [brute_force_eq_find g confirm d w hw]
  rw [find?_intRange_eq_some _ ((((10 ^ d - 1 : Nat) : Int)) + 1 - 0).toNat 0
    (((10 ^ d - 1 : Nat) : Int)) n0 rfl h0 hm (by simp [hacc]) ?_]
  · simp [hconf]
  · intro k h1 h2
    simp [hmin k h1 h2]

/-- Witness for the C9 theorem: the probe accepts exactly the candidate
rendering 42 in the space `[0, 99]` split across 4 workers, confirmation
always succeeds, and the search returns that candidate. -/
theorem search_returns_least_accepted_witness :
    brute_force_rar_password probeOnly42 confirmAlways 2 4 = some (render8 42) :=
  search_returns_least_accepted probeOnly42 confirmAlways 2 4 42 (by decide)
    (by decide) (by decide) (by decide)
    (fun k hk0 hklt => by
      intro hacc
      by_cases heq : render8 k = render8 42
      · have := render8_injOn k 42 hk0 (by decide) heq
        omega
      · simp only [probeOnly42, if_neg heq] at hacc
        exact ProbeOutcome.noConfusion hacc)
    (by decide)

/-- C10 (implicit): the rendering width is hardwired to 8 in the worker
(`str(num).zfill(8)`) regardless of `max_digits`: for `max_digits < 8` the
tested candidate strings have length exactly 8, never `max_digits`, even
though the enumerated range is derived from `max_digits`; in particular any
candidate a worker returns has length 8. -/
theorem candidate_width_hardwired (g : List Char → ProbeOutcome) (d n : Nat)
    (s e : Int) (hd : 0 < d) (hd8 : d < 8) (hn : n ≤ 10 ^ d - 1)
    (he : e ≤ ((10 ^ d - 1 : Nat) : Int)) :
    ((render8 ((n : Nat) : Int)).length = 8 ∧ (render8 ((n : Nat) : Int)).length ≠ d)
    ∧ ∀ pw : List Char, test_password_chunk g s e = some pw → pw.length = 8 := by
  have h1 : (10 : Nat) ^ d ≤ 10 ^ 8 := Nat.pow_le_pow_right (by norm_num) (by omega)
  have h2 : 0 < (10 : Nat) ^ d := pow_pos (by norm_num) d
  have hlen : (render8 ((n : Nat) : Int)).length = 8 := render8_len _ (by omega)
  refine ⟨⟨hlen, by omega⟩, ?_⟩
  intro pw hpw
  unfold test_password_chunk at hpw
  rw [chunkLoop_eq_find] at hpw
  cases hf : (intRange s e).find?
      (fun k => decide (g (render8 k) = ProbeOutcome.accepted)) with
  | none => rw [hf] at hpw; simp at hpw
  | some k =>
    rw [hf] at hpw
    simp only [Option.map_some'] at hpw
    have hmem := (mem_intRange s e k).mp (List.mem_of_find?_eq_some hf)
    have hk : k.toNat < 10 ^ 8 := by omega
    rw [← Option.some.inj hpw]
    exact render8_len k hk

/-- Witness for the C10 theorem at `max_digits = 1`, `n = 7`, chunk `[0, 9]`. -/
theorem candidate_width_hardwired_witness :
    (0 < 1 ∧ 1 < 8 ∧ 7 ≤ 10 ^ 1 - 1 ∧ (9 : Int) ≤ ((10 ^ 1 - 1 : Nat) : Int)) ∧
      (((render8 ((7 : Nat) : Int)).length = 8
          ∧ (render8 ((7 : Nat) : Int)).length ≠ 1)
        ∧ ∀ pw : List Char,
            test_password_chunk (fun _ => ProbeOutcome.wrongPassword) 0 9 = some pw →
              pw.length = 8) :=
  ⟨⟨by decide, by decide, by decide, by decide⟩,
    candidate_width_hardwired (fun _ => ProbeOutcome.wrongPassword) 1 7 0 9
      (by decide) (by decide) (by decide) (by decide)⟩

end RarBrute
